import Mathlib

/-!
The distillation loop of `main` in hpgl-distiller.

A shallow embedding of `src/hpgl-distiller.c`, lines 308-375: the terminating
NUL, the initialisation line, the `strtok` loop, the `strncmp` accept test, the
`fprintf` of accepted tokens and the `usleep` pacing.

Conventions.
* A byte is a `Nat`; memory seen through a `char *` is the `List Nat` of the
  bytes from that address on. Reading past the end of such a list reads the
  terminator `0`, so a C string is represented by its content.
* The C library functions the loop calls (`strspn`, `strcspn`, `strtok`,
  `strncmp`, `strchr`, `sscanf` with the format `%ld,%ld`) are modelled after
  ISO C; `long` is 64 bits, `int` and `useconds_t` are 32 bits.
* `sqrt` works on `double`; the map `v ↦ (long) sqrt((double) v)` is a
  parameter `sqrtLong` of the model.
* Only the output file `fo`, the `usleep` calls and the locals of `main` are
  recorded; the `debug` lines on stdout and the `Distance:` line on stderr are
  not.
-/

namespace HPGLD

/-! ## Bytes and the configuration structure -/

/-- The bytes of a string literal of the source. -/
def bytes (s : String) : List Nat := s.toList.map Char.toNat

/-- The macro `HPGLD_DEFAULT_INIT_STRING`. -/
def HPGLD_DEFAULT_INIT_STRING : List Nat := bytes "IN;PU;"

/-- The structure `struct hpgld_glb`, without the two file names. -/
structure hpgld_glb where
  status : Int
  debug : Int
  slew : Int
  find_bb : Int
  bb_xo : Int
  bb_yo : Int
  bb_width : Int
  bb_height : Int
  xoffset : Int
  yoffset : Int
  init_string : List Nat
  deriving DecidableEq

/-- The function `HPGLD_init`. It never assigns `find_bb`, whose value stays
whatever the caller's stack held: it is the argument `find_bb` here. -/
def HPGLD_init (find_bb : Int) : hpgld_glb :=
  { status := 0, debug := 0, slew := 0, find_bb := find_bb,
    bb_xo := 0, bb_yo := 0, bb_width := -1, bb_height := -1,
    xoffset := 0, yoffset := 0, init_string := HPGLD_DEFAULT_INIT_STRING }

/-! ## The C library functions used by the loop -/

/-- The delimiter string `";\n\r"` of both `strtok` calls. -/
def delims : List Nat := bytes ";\n\r"

/-- C `strspn(s, accept)`: the length of the longest initial segment of the
string `s` made of bytes of `accept`. The terminator ends the segment. -/
def strspn : List Nat → List Nat → Nat
  | [], _ => 0
  | c :: s, accept => if c ≠ 0 ∧ c ∈ accept then strspn s accept + 1 else 0

/-- C `strcspn(s, reject)`: the length of the longest initial segment of the
string `s` with no byte of `reject`. The terminator ends the segment. -/
def strcspn : List Nat → List Nat → Nat
  | [], _ => 0
  | c :: s, reject => if c = 0 ∨ c ∈ reject then 0 else strcspn s reject + 1

/-- C `strtok`, with its hidden save pointer made explicit: `s` is the memory
from the position where scanning starts (the buffer on the first call, the save
pointer on the calls with `NULL`). The result is the token returned (`none` for
`NULL`) and the new save pointer.

It skips the leading delimiters; at the terminator it returns `NULL`; otherwise
the token runs to the next delimiter or terminator; a delimiter is overwritten
with `0` (so the token read as a C string is exactly that run) and the save
pointer is set one byte past it, while at the terminator the save pointer stays
on it. -/
def strtok (s delim : List Nat) : Option (List Nat) × List Nat :=
  let s1 := s.drop (strspn s delim)
  if s1.headD 0 = 0 then (none, s1)
  else
    let n := strcspn s1 delim
    let tok := s1.take n
    let e := s1.drop n
    if e.headD 0 = 0 then (some tok, e) else (some tok, e.drop 1)

/-- C `strncmp(s1, s2, n)`: compares at most `n` bytes of two strings and stops
after a terminator; zero when they agree, else the difference of the first
bytes that differ. -/
def strncmp : List Nat → List Nat → Nat → Int
  | _, _, 0 => 0
  | s1, s2, n + 1 =>
    let c1 := s1.headD 0
    let c2 := s2.headD 0
    if c1 ≠ c2 then (c1 : Int) - (c2 : Int)
    else if c1 = 0 then 0
    else strncmp s1.tail s2.tail n

/-- C `strchr(s, c) != NULL`: whether byte `c` occurs in the string `s`, its
terminator included. -/
def strchr : List Nat → Nat → Bool
  | [], c => c == 0
  | b :: s, c => if b = c then true else if b = 0 then false else strchr s c

/-- C `isspace` in the C locale. -/
def isspace (c : Nat) : Bool := c == 32 || (9 ≤ c && c ≤ 13)

/-- C `isdigit`. -/
def isdigit (c : Nat) : Bool := 48 ≤ c && c ≤ 57

/-- Reads the decimal digits at the head of `s` onto the accumulator. -/
def scanDigits : List Nat → Nat → Nat × List Nat
  | [], acc => (acc, [])
  | c :: s, acc => if isdigit c then scanDigits s (acc * 10 + (c - 48)) else (acc, c :: s)

/-- The value range of `long`: out-of-range conversions of `%ld` saturate. -/
def clampLong (v : Int) : Int :=
  if v < -(2 ^ 63) then -(2 ^ 63) else if 2 ^ 63 - 1 < v then 2 ^ 63 - 1 else v

/-- One `%ld` conversion of `sscanf`: white space is skipped, then an optional
sign and at least one decimal digit are read. `none` is a matching failure (or
the end of the input); otherwise the value and the unread input. -/
def scanLong (s : List Nat) : Option (Int × List Nat) :=
  let s0 := s.dropWhile isspace
  let neg := s0.headD 0 = 45
  let s1 := if s0.headD 0 = 45 ∨ s0.headD 0 = 43 then s0.tail else s0
  if isdigit (s1.headD 0) then
    let r := scanDigits s1 0
    some (clampLong (if neg then -(r.1 : Int) else (r.1 : Int)), r.2)
  else none

/-- C `sscanf(p, "%ld,%ld", &px, &py)`: given the input and the current values
of `px` and `py`, the return value and the values of `px` and `py` afterwards.
The return value is the number of conversions stored, or `-1` (`EOF`) when the
input ends before the first conversion. -/
def sscanf (p : List Nat) (px py : Int) : Int × Int × Int :=
  match scanLong p with
  | none => (if (p.dropWhile isspace).headD 0 = 0 then -1 else 0, px, py)
  | some (x, rest) =>
    if rest.headD 0 = 44 then
      match scanLong rest.tail with
      | none => (1, x, py)
      | some (y, _) => (2, x, y)
    else (1, x, py)

/-- Two's complement wrap-around of `long` arithmetic. -/
def wrapLong (v : Int) : Int := (v + 2 ^ 63) % 2 ^ 64 - 2 ^ 63

/-- Conversion of an integer argument to the `useconds_t` of `usleep`. -/
def toUseconds (v : Int) : Nat := (v % 2 ^ 32).toNat

/-! ## The loop of `main` -/

/-- The accept test of lines 330-339. -/
def accepted (p : List Nat) : Bool :=
  strncmp p (bytes "IN") 2 == 0
    || strncmp p (bytes "PA") 2 == 0
    || strncmp p (bytes "PD") 2 == 0
    || strncmp p (bytes "PU") 2 == 0
    || strncmp p (bytes "PG") 2 == 0
    || strncmp p (bytes "PR") 2 == 0
    || strncmp p (bytes "!PG") 3 == 0

/-- What the loop changes: the bytes written to `fo`, the tokens handed to the
`fprintf` of line 342 (in call order), the arguments of the `usleep` calls (in
call order) and the locals `px`, `py`, `ox`, `oy`. -/
structure State where
  fo : List Nat
  written : List (List Nat)
  sleeps : List Nat
  px : Int
  py : Int
  ox : Int
  oy : Int
  deriving DecidableEq

/-- The pacing block, lines 346-360, entered when `glb.slew` is non-zero. -/
def pace (sqrtLong : Int → Int) (glb : hpgld_glb) (p : List Nat) (st : State) : State :=
  if strchr p 44 then
    let sc := sscanf p st.px st.py
    let px := sc.2.1
    let py := sc.2.2
    if sc.1 = 2 then
      let distance :=
        sqrtLong (wrapLong ((px - st.ox) * (px - st.ox) + (py - st.oy) * (py - st.oy)))
      { st with
        px := px, py := py,
        sleeps := st.sleeps ++ [toUseconds (wrapLong (distance * glb.slew))],
        ox := px, oy := py }
    else
      { st with px := px, py := py, sleeps := st.sleeps ++ [toUseconds (10 * glb.slew)] }
  else st

/-- The body of the `while (p)` loop, lines 322-368, for the token `p`. -/
def body (sqrtLong : Int → Int) (glb : hpgld_glb) (p : List Nat) (st : State) : State :=
  if accepted p then
    let st1 := { st with fo := st.fo ++ (p ++ bytes ";\n"), written := st.written ++ [p] }
    if glb.slew ≠ 0 then pace sqrtLong glb p st1 else st1
  else st

/-- The loop of lines 319-375: `s` is the memory `strtok` scans next. Each
round costs one unit of fuel; `none` means the fuel ran out. -/
def loop (sqrtLong : Int → Int) (glb : hpgld_glb) : Nat → List Nat → State → Option State
  | 0, _, _ => none
  | fuel + 1, s, st =>
    match strtok s delims with
    | (none, _) => some st
    | (some p, s1) => loop sqrtLong glb fuel s1 (body sqrtLong glb p st)

/-- The state when the loop is entered: line 313 has written the
initialisation string and a line feed, `ox = oy = 0` (line 226); `px` and `py`
are not initialised by the source and are never read before `sscanf` has
stored both, so they start at `0` here. -/
def initState (glb : hpgld_glb) : State :=
  { fo := glb.init_string ++ bytes "\n", written := [], sleeps := [],
    px := 0, py := 0, ox := 0, oy := 0 }

/-- Lines 308-375 of `main` on the `file_size` bytes `data` read from the
input file: the terminator is stored at `data[file_size]`, the initialisation
line is written and the loop runs, with one unit of fuel more than the
memory has bytes. -/
def main (sqrtLong : Int → Int) (glb : hpgld_glb) (data : List Nat) : Option State :=
  loop sqrtLong glb ((data ++ [0]).length + 1) (data ++ [0]) (initState glb)

/-- The sequence of tokens that successive `strtok` calls return on the memory
`s`, by the same recursion as `loop`. -/
def tokenize : Nat → List Nat → Option (List (List Nat))
  | 0, _ => none
  | fuel + 1, s =>
    match strtok s delims with
    | (none, _) => some []
    | (some p, s1) => (tokenize fuel s1).map (fun ts => p :: ts)

/-- The tokens of the input buffer `data`, as the loop of `main` meets them. -/
def tokens (data : List Nat) : Option (List (List Nat)) :=
  tokenize ((data ++ [0]).length + 1) (data ++ [0])

/-! ## Reference notions the claims are stated with -/

/-- The C string held in the memory `s`: the bytes before the first `0`. -/
def cstr (s : List Nat) : List Nat := s.takeWhile (fun c => c != 0)

/-- Whether a byte is one of the three delimiters `;`, line feed, carriage
return. -/
def isDelim (c : Nat) : Bool := decide (c ∈ delims)

/-- The maximal non-empty runs of non-delimiter bytes of `l`, in order: `l` is
cut at every delimiter and the empty pieces are left out. -/
def runs (l : List Nat) : List (List Nat) := (l.splitOnP isDelim).filter (fun t => t != [])

/-- The seven mnemonics of the accept test. -/
def acceptSet : List (List Nat) :=
  [bytes "IN", bytes "PA", bytes "PD", bytes "PU", bytes "PG", bytes "PR", bytes "!PG"]

/-- The bytes the loop writes for a sequence of tokens: each token followed by
`;` and a line feed. -/
def tokenLines (ts : List (List Nat)) : List Nat :=
  (ts.map (fun t => t ++ bytes ";\n")).flatten

/-! ## Lemmas on the tokenizer -/

theorem delims_eq : delims = [59, 10, 13] := by decide

theorem isDelim_iff (c : Nat) : isDelim c = true ↔ c = 59 ∨ c = 10 ∨ c = 13 := by
  simp [isDelim, delims_eq]

theorem isDelim_ne_zero {c : Nat} (h : isDelim c = true) : c ≠ 0 := by
  rw [isDelim_iff] at h; omega

theorem mem_delims_iff (c : Nat) : c ∈ delims ↔ isDelim c = true := by
  simp [isDelim]

theorem cstr_nil : cstr [] = [] := rfl

theorem cstr_zero (s : List Nat) : cstr (0 :: s) = [] := by simp [cstr]

theorem cstr_cons {c : Nat} (h : c ≠ 0) (s : List Nat) : cstr (c :: s) = c :: cstr s := by
  simp [cstr, h]

theorem runs_nil : runs [] = [] := by simp [runs]

theorem runs_cons_delim {c : Nat} (h : isDelim c = true) (l : List Nat) :
    runs (c :: l) = runs l := by
  simp [runs, h]

theorem strtok_nil : strtok [] delims = (none, []) := by simp [strtok, strspn]

theorem strtok_zero (s : List Nat) : strtok (0 :: s) delims = (none, 0 :: s) := by
  simp [strtok, strspn]

theorem strtok_cons_delim {c : Nat} (h : isDelim c = true) (s : List Nat) :
    strtok (c :: s) delims = strtok s delims := by
  have h0 := isDelim_ne_zero h
  have hm := (mem_delims_iff c).2 h
  simp [strtok, strspn, h0, hm]

/-- The token phase of `strtok`: the first `strcspn` bytes are the token, and
the memory behind it starts with a terminator or a delimiter. -/
theorem strcspn_spec (s : List Nat) :
    (∀ x ∈ s.take (strcspn s delims), isDelim x = false ∧ x ≠ 0) ∧
    cstr s = s.take (strcspn s delims) ++ cstr (s.drop (strcspn s delims)) ∧
    strcspn s delims ≤ s.length ∧
    ((s.drop (strcspn s delims)).headD 0 ≠ 0 →
      ∃ d rest, s.drop (strcspn s delims) = d :: rest ∧ isDelim d = true) := by
  induction s with
  | nil => simp [strcspn, cstr]
  | cons c s ih =>
    by_cases h : c = 0 ∨ c ∈ delims
    · have hs : strcspn (c :: s) delims = 0 := by simp [strcspn, h]
      rw [hs]
      refine ⟨by simp, by simp, by simp, ?_⟩
      intro hne
      rcases h with h | h
      · simp [h] at hne
      · exact ⟨c, s, by simp, (mem_delims_iff c).1 h⟩
    · have hs : strcspn (c :: s) delims = strcspn s delims + 1 := by simp [strcspn, h]
      rw [hs]
      push_neg at h
      obtain ⟨h1, h2, h3, h4⟩ := ih
      refine ⟨?_, ?_, by simp; omega, ?_⟩
      · intro x hx
        simp only [List.take_succ_cons, List.mem_cons] at hx
        rcases hx with hx | hx
        · subst hx
          refine ⟨?_, h.1⟩
          have := h.2
          rw [mem_delims_iff] at this
          simpa using this
        · exact h1 x hx
      · simp only [List.take_succ_cons, List.drop_succ_cons, List.cons_append]
        rw [cstr_cons h.1, h2]
      · simpa using h4

theorem runs_single {t : List Nat} (h : ∀ x ∈ t, isDelim x = false) (hne : t ≠ []) :
    runs t = [t] := by
  have : t.splitOnP isDelim = [t] := List.splitOnP_eq_single _ _ (by simpa using h)
  simp [runs, this, hne]

theorem runs_first {t : List Nat} (h : ∀ x ∈ t, isDelim x = false) (hne : t ≠ [])
    {d : Nat} (hd : isDelim d = true) (l : List Nat) :
    runs (t ++ d :: l) = t :: runs l := by
  have : (t ++ d :: l).splitOnP isDelim = t :: l.splitOnP isDelim :=
    List.splitOnP_first _ _ (by simpa using h) d hd l
  simp [runs, this, hne]

/-- What one `strtok` call does, in terms of the runs of the C string: `NULL`
exactly when no run is left, else the first run, with the save pointer on a
strictly shorter memory holding the remaining runs. -/
theorem strtok_spec (s : List Nat) :
    ((strtok s delims).1 = none → runs (cstr s) = []) ∧
    (∀ p, (strtok s delims).1 = some p →
      runs (cstr s) = p :: runs (cstr (strtok s delims).2) ∧
      (strtok s delims).2.length < s.length ∧
      p ≠ [] ∧ (∀ x ∈ p, isDelim x = false ∧ x ≠ 0) ∧ p <:+: s) := by
  induction s with
  | nil => simp [strtok_nil, cstr_nil, runs_nil]
  | cons c s ih =>
    by_cases h0 : c = 0
    · subst h0
      simp [strtok_zero, cstr_zero, runs_nil]
    by_cases hd : isDelim c = true
    · rw [strtok_cons_delim hd, cstr_cons h0, runs_cons_delim hd]
      refine ⟨ih.1, ?_⟩
      intro p hp
      obtain ⟨h1, h2, h3, h4, h5⟩ := ih.2 p hp
      refine ⟨h1, by simp; omega, h3, h4, ?_⟩
      exact h5.trans (List.suffix_cons c s).isInfix
    · have hm : c ∉ delims := by rw [mem_delims_iff]; exact hd
      have hd' : isDelim c = false := by simpa using hd
      obtain ⟨t1, t2, t3, t4⟩ := strcspn_spec (c :: s)
      have hn : strcspn (c :: s) delims = strcspn s delims + 1 := by
        simp [strcspn, h0, hm]
      have hsp : strspn (c :: s) delims = 0 := by simp [strspn, hm]
      have hne : (c :: s).take (strcspn (c :: s) delims) ≠ [] := by
        rw [hn]; simp
      have hpre : (c :: s).take (strcspn (c :: s) delims) <+: c :: s := List.take_prefix _ _
      have hinf : (c :: s).take (strcspn (c :: s) delims) <:+: c :: s := hpre.isInfix
      have hlen : ((c :: s).drop (strcspn (c :: s) delims)).length < (c :: s).length := by
        rw [List.length_drop, hn]; simp; omega
      by_cases he : ((c :: s).drop (strcspn (c :: s) delims)).headD 0 = 0
      · have hst : strtok (c :: s) delims =
            (some ((c :: s).take (strcspn (c :: s) delims)),
              (c :: s).drop (strcspn (c :: s) delims)) := by
          simp only [strtok, hsp, List.drop_zero]
          rw [if_neg (by simpa using h0), if_pos he]
        have hce : cstr ((c :: s).drop (strcspn (c :: s) delims)) = [] := by
          cases hx : (c :: s).drop (strcspn (c :: s) delims) with
          | nil => rfl
          | cons a l =>
            rw [hx] at he
            simp at he
            subst he
            exact cstr_zero l
        rw [hst]
        refine ⟨by simp, ?_⟩
        intro p hp
        simp only [Option.some.injEq] at hp
        subst hp
        refine ⟨?_, hlen, hne, t1, hinf⟩
        rw [t2, hce, List.append_nil, runs_nil]
        exact runs_single (fun x hx => (t1 x hx).1) hne
      · obtain ⟨d, rest, hdr, hdd⟩ := t4 he
        have hst : strtok (c :: s) delims =
            (some ((c :: s).take (strcspn (c :: s) delims)), rest) := by
          simp only [strtok, hsp, List.drop_zero]
          rw [if_neg (by simpa using h0), if_neg he, hdr]
          rfl
        rw [hst]
        refine ⟨by simp, ?_⟩
        intro p hp
        simp only [Option.some.injEq] at hp
        subst hp
        refine ⟨?_, ?_, hne, t1, hinf⟩
        · rw [t2, hdr, cstr_cons (isDelim_ne_zero hdd)]
          exact runs_first (fun x hx => (t1 x hx).1) hne hdd _
        · rw [hdr] at hlen
          simp at hlen ⊢
          omega

/-- With more fuel than bytes of memory, the `strtok` calls return the runs of
the C string, one after the other, and then `NULL`. -/
theorem tokenize_eq (fuel : Nat) (s : List Nat) (h : s.length < fuel) :
    tokenize fuel s = some (runs (cstr s)) := by
  induction fuel generalizing s with
  | zero => omega
  | succ n ih =>
    obtain ⟨h1, h2⟩ := strtok_spec s
    unfold tokenize
    cases hst : strtok s delims with
    | mk r s1 =>
      rw [hst] at h1 h2
      cases r with
      | none => simp [h1 rfl]
      | some p =>
        obtain ⟨e1, e2, -⟩ := h2 p rfl
        simp only at e1 e2 ⊢
        rw [ih s1 (by omega), e1]
        rfl

theorem cstr_append_zero (data : List Nat) : cstr (data ++ [0]) = cstr data := by
  induction data with
  | nil => simp [cstr]
  | cons c l ih =>
    by_cases h : c = 0
    · subst h; simp [cstr_zero]
    · simp [cstr_cons h, ih]

theorem tokens_eq (data : List Nat) : tokens data = some (runs (cstr data)) := by
  unfold tokens
  rw [tokenize_eq _ _ (Nat.lt_succ_self _), cstr_append_zero]

/-- The loop is the fold of its body over the tokens `strtok` returns. -/
theorem loop_eq_tokenize (sq : Int → Int) (glb : hpgld_glb) (fuel : Nat) (s : List Nat)
    (st : State) :
    loop sq glb fuel s st =
      (tokenize fuel s).map (fun ts => ts.foldl (fun a p => body sq glb p a) st) := by
  induction fuel generalizing s st with
  | zero => rfl
  | succ n ih =>
    unfold loop tokenize
    cases hst : strtok s delims with
    | mk r s1 =>
      cases r with
      | none => rfl
      | some p =>
        simp only
        rw [ih]
        cases tokenize n s1 <;> rfl

theorem main_eq (sq : Int → Int) (glb : hpgld_glb) (data : List Nat) :
    main sq glb data =
      some ((runs (cstr data)).foldl (fun a p => body sq glb p a) (initState glb)) := by
  have h := tokens_eq data
  unfold tokens at h
  unfold main
  rw [loop_eq_tokenize, h]
  rfl

/-! ## Lemmas on runs and C strings -/

theorem splitOnP_append_cons (p : Nat → Bool) (xs : List Nat) {d : Nat} (hd : p d = true)
    (zs : List Nat) :
    (xs ++ d :: zs).splitOnP p = xs.splitOnP p ++ zs.splitOnP p := by
  induction xs with
  | nil => simp [hd]
  | cons x xs ih =>
    rw [List.cons_append, List.splitOnP_cons, List.splitOnP_cons, ih]
    by_cases hx : p x = true
    · simp [hx]
    · simp only [hx, if_false, Bool.false_eq_true]
      cases h : xs.splitOnP p with
      | nil => exact absurd h (List.splitOnP_ne_nil p xs)
      | cons a l => rfl

theorem runs_append_cons (xs : List Nat) {d : Nat} (hd : isDelim d = true) (zs : List Nat) :
    runs (xs ++ d :: zs) = runs xs ++ runs zs := by
  simp [runs, splitOnP_append_cons isDelim xs hd zs]

theorem runs_delims_append {ds : List Nat} (h : ∀ d ∈ ds, isDelim d = true) (l : List Nat) :
    runs (ds ++ l) = runs l := by
  induction ds with
  | nil => rfl
  | cons d ds ih =>
    rw [List.cons_append, runs_cons_delim (h d (List.mem_cons_self d ds))]
    exact ih (fun x hx => h x (List.mem_cons_of_mem d hx))

theorem runs_delims {ds : List Nat} (h : ∀ d ∈ ds, isDelim d = true) : runs ds = [] := by
  have := runs_delims_append h []
  rwa [List.append_nil, runs_nil] at this

theorem runs_append_delims (xs : List Nat) {ds : List Nat} (h : ∀ d ∈ ds, isDelim d = true) :
    runs (xs ++ ds) = runs xs := by
  cases ds with
  | nil => simp
  | cons d ds =>
    rw [runs_append_cons xs (h d (List.mem_cons_self d ds)),
      runs_delims (fun x hx => h x (List.mem_cons_of_mem d hx)), List.append_nil]

/-- Every piece of a split is a contiguous part of the list; the first piece
is a prefix. -/
theorem splitOnP_pieces (p : Nat → Bool) (l : List Nat) :
    ∃ h tl, l.splitOnP p = h :: tl ∧ h <+: l ∧ ∀ t ∈ tl, t <:+: l := by
  induction l with
  | nil => exact ⟨[], [], rfl, List.prefix_rfl, by simp⟩
  | cons x xs ih =>
    obtain ⟨h, tl, e, hp, ht⟩ := ih
    rw [List.splitOnP_cons, e]
    by_cases hx : p x = true
    · refine ⟨[], h :: tl, by simp [hx], List.nil_prefix, ?_⟩
      intro t ht'
      rcases List.mem_cons.1 ht' with rfl | h'
      · exact hp.isInfix.trans (List.suffix_cons x xs).isInfix
      · exact (ht t h').trans (List.suffix_cons x xs).isInfix
    · refine ⟨x :: h, tl, by simp [hx], ?_, ?_⟩
      · exact List.cons_prefix_cons.2 ⟨rfl, hp⟩
      · intro t h'
        exact (ht t h').trans (List.suffix_cons x xs).isInfix

theorem runs_contiguous (l : List Nat) : ∀ t ∈ runs l, t <:+: l := by
  obtain ⟨h, tl, e, hp, ht⟩ := splitOnP_pieces isDelim l
  intro t hmem
  simp only [runs, e, List.mem_filter, List.mem_cons] at hmem
  rcases hmem.1 with rfl | h'
  · exact hp.isInfix
  · exact ht t h'

theorem cstr_initial (s : List Nat) : cstr s <+: s := List.takeWhile_prefix _

theorem cstr_no_zero (s : List Nat) : ∀ b ∈ cstr s, b ≠ 0 := by
  intro b hb
  have := List.mem_takeWhile_imp hb
  simpa using this

theorem cstr_of_no_zero {s : List Nat} (h : ∀ b ∈ s, b ≠ 0) : cstr s = s := by
  induction s with
  | nil => rfl
  | cons c l ih =>
    rw [cstr_cons (h c (List.mem_cons_self c l)),
      ih (fun b hb => h b (List.mem_cons_of_mem c hb))]

theorem cstr_append_zero_cons (a b : List Nat) : cstr (a ++ 0 :: b) = cstr a := by
  induction a with
  | nil => simp [cstr]
  | cons c l ih =>
    by_cases h : c = 0
    · subst h; simp [cstr_zero]
    · simp [cstr_cons h, ih]

theorem cstr_append_of_no_zero {a : List Nat} (h : ∀ x ∈ a, x ≠ 0) (b : List Nat) :
    cstr (a ++ b) = a ++ cstr b := by
  induction a with
  | nil => rfl
  | cons c l ih =>
    rw [List.cons_append, cstr_cons (h c (List.mem_cons_self c l)),
      ih (fun x hx => h x (List.mem_cons_of_mem c hx)), List.cons_append]

theorem cstr_append_of_zero {a : List Nat} (h : 0 ∈ a) (b : List Nat) :
    cstr (a ++ b) = cstr a := by
  obtain ⟨u, v, rfl⟩ := List.append_of_mem h
  rw [List.append_assoc, List.cons_append, cstr_append_zero_cons, cstr_append_zero_cons]

theorem splitOnP_mem (p : Nat → Bool) (l : List Nat) :
    ∀ t ∈ l.splitOnP p, ∀ c ∈ t, p c = false := by
  induction l with
  | nil => simp
  | cons x xs ih =>
    rw [List.splitOnP_cons]
    by_cases hx : p x = true
    · intro t ht
      simp only [hx, if_true, List.mem_cons] at ht
      rcases ht with rfl | h'
      · simp
      · exact ih t h'
    · simp only [hx, if_false, Bool.false_eq_true]
      cases h : xs.splitOnP p with
      | nil => exact absurd h (List.splitOnP_ne_nil p xs)
      | cons a tl =>
        rw [h] at ih
        intro t ht
        simp only [List.modifyHead, List.mem_cons] at ht
        rcases ht with rfl | h'
        · intro c hc
          rcases List.mem_cons.1 hc with rfl | hc'
          · simpa using hx
          · exact ih a (List.mem_cons_self a tl) c hc'
        · exact ih t (List.mem_cons_of_mem a h')

/-- Every run is non-empty and free of delimiters. -/
theorem runs_mem (l : List Nat) : ∀ t ∈ runs l, t ≠ [] ∧ ∀ c ∈ t, isDelim c = false := by
  intro t ht
  simp only [runs, List.mem_filter] at ht
  exact ⟨by simpa using ht.2, splitOnP_mem isDelim l t ht.1⟩

/-! ## Lemmas on the accept test and the loop body -/

theorem strncmp_zero (s1 s2 : List Nat) : strncmp s1 s2 0 = 0 := by
  unfold strncmp; rfl

theorem strncmp_cons {c : Nat} (hc : c ≠ 0) (s1 m : List Nat) (n : Nat) :
    strncmp s1 (c :: m) (n + 1) = 0 ↔ ∃ t, s1 = c :: t ∧ strncmp t m n = 0 := by
  cases s1 with
  | nil =>
    have : (0 : Nat) ≠ c := fun h => hc h.symm
    simp only [strncmp, List.headD_nil, List.headD_cons, ne_eq, this, not_false_eq_true,
      if_true]
    constructor
    · intro h; omega
    · rintro ⟨t, ht, -⟩; cases ht
  | cons a l =>
    by_cases h : a = c
    · subst h
      simp [strncmp, hc]
    · simp only [strncmp, List.headD_cons, ne_eq, h, not_false_eq_true, if_true]
      constructor
      · intro h'; omega
      · rintro ⟨t, ht, -⟩
        simp only [List.cons.injEq] at ht
        exact absurd ht.1 h

theorem strncmp_two {a b : Nat} (ha : a ≠ 0) (hb : b ≠ 0) (p : List Nat) :
    strncmp p [a, b] 2 = 0 ↔ [a, b] <+: p := by
  rw [strncmp_cons ha]
  constructor
  · rintro ⟨t, rfl, h⟩
    obtain ⟨u, rfl, -⟩ := (strncmp_cons hb t [] 0).1 h
    exact ⟨u, rfl⟩
  · rintro ⟨u, rfl⟩
    exact ⟨b :: u, rfl, (strncmp_cons hb _ [] 0).2 ⟨u, rfl, strncmp_zero _ _⟩⟩

theorem strncmp_three {a b c : Nat} (ha : a ≠ 0) (hb : b ≠ 0) (hc : c ≠ 0) (p : List Nat) :
    strncmp p [a, b, c] 3 = 0 ↔ [a, b, c] <+: p := by
  rw [strncmp_cons ha]
  constructor
  · rintro ⟨t, rfl, h⟩
    obtain ⟨u, rfl, h2⟩ := (strncmp_cons hb t [c] 1).1 h
    obtain ⟨v, rfl, -⟩ := (strncmp_cons hc u [] 0).1 h2
    exact ⟨v, rfl⟩
  · rintro ⟨u, rfl⟩
    exact ⟨b :: c :: u, rfl, (strncmp_cons hb _ [c] 1).2
      ⟨c :: u, rfl, (strncmp_cons hc _ [] 0).2 ⟨u, rfl, strncmp_zero _ _⟩⟩⟩

theorem acceptSet_eq : acceptSet =
    [[73, 78], [80, 65], [80, 68], [80, 85], [80, 71], [80, 82], [33, 80, 71]] := by decide

/-- The accept test holds exactly when one of the seven mnemonics is a prefix
of the token. -/
theorem accepted_iff (p : List Nat) : accepted p = true ↔ ∃ m ∈ acceptSet, m <+: p := by
  have e1 : bytes "IN" = [73, 78] := by decide
  have e2 : bytes "PA" = [80, 65] := by decide
  have e3 : bytes "PD" = [80, 68] := by decide
  have e4 : bytes "PU" = [80, 85] := by decide
  have e5 : bytes "PG" = [80, 71] := by decide
  have e6 : bytes "PR" = [80, 82] := by decide
  have e7 : bytes "!PG" = [33, 80, 71] := by decide
  simp only [accepted, e1, e2, e3, e4, e5, e6, e7, Bool.or_eq_true, beq_iff_eq, acceptSet_eq,
    List.mem_cons, List.mem_singleton, List.not_mem_nil, or_false, exists_eq_or_imp,
    exists_eq_left]
  rw [strncmp_two (by decide) (by decide), strncmp_two (by decide) (by decide),
    strncmp_two (by decide) (by decide), strncmp_two (by decide) (by decide),
    strncmp_two (by decide) (by decide), strncmp_two (by decide) (by decide),
    strncmp_three (by decide) (by decide) (by decide)]
  tauto

theorem pace_fo (sq : Int → Int) (glb : hpgld_glb) (p : List Nat) (st : State) :
    (pace sq glb p st).fo = st.fo ∧ (pace sq glb p st).written = st.written := by
  unfold pace
  by_cases h1 : strchr p 44 = true
  · by_cases h2 : (sscanf p st.px st.py).1 = 2
    · simp [h1, h2]
    · simp [h1, h2]
  · simp [h1]

theorem body_fo (sq : Int → Int) (glb : hpgld_glb) (p : List Nat) (st : State) :
    (body sq glb p st).fo = st.fo ++ tokenLines ([p].filter accepted) ∧
    (body sq glb p st).written = st.written ++ [p].filter accepted := by
  unfold body
  by_cases h : accepted p = true
  · simp only [h, if_true]
    split
    · rw [(pace_fo _ _ _ _).1, (pace_fo _ _ _ _).2]
      simp [tokenLines, h]
    · simp [tokenLines, h]
  · simp [h, tokenLines]

theorem tokenLines_append (a b : List (List Nat)) :
    tokenLines (a ++ b) = tokenLines a ++ tokenLines b := by
  simp [tokenLines]

theorem foldl_body_fo (sq : Int → Int) (glb : hpgld_glb) (ts : List (List Nat)) (st : State) :
    (ts.foldl (fun a p => body sq glb p a) st).fo = st.fo ++ tokenLines (ts.filter accepted) ∧
    (ts.foldl (fun a p => body sq glb p a) st).written = st.written ++ ts.filter accepted := by
  induction ts generalizing st with
  | nil => simp [tokenLines]
  | cons t ts ih =>
    rw [List.foldl_cons, (ih _).1, (ih _).2, (body_fo _ _ _ _).1, (body_fo _ _ _ _).2]
    have : (t :: ts).filter accepted = [t].filter accepted ++ ts.filter accepted := by
      rw [← List.filter_append]; rfl
    rw [this, tokenLines_append, List.append_assoc, List.append_assoc]
    exact ⟨rfl, rfl⟩

/-- The run always ends, and it writes the initialisation line followed by the
accepted runs of the C string in the buffer, one per line. -/
theorem main_spec (sq : Int → Int) (glb : hpgld_glb) (data : List Nat) :
    ∃ st, main sq glb data = some st ∧
      st.written = (runs (cstr data)).filter accepted ∧
      st.fo = glb.init_string ++ bytes "\n" ++ tokenLines st.written := by
  refine ⟨_, main_eq sq glb data, ?_, ?_⟩
  · rw [(foldl_body_fo _ _ _ _).2]; rfl
  · rw [(foldl_body_fo _ _ _ _).1, (foldl_body_fo _ _ _ _).2]; rfl

theorem accepted_head {p : List Nat} (h : accepted p = true) :
    ∃ c rest, p = c :: rest ∧ (c = 73 ∨ c = 80 ∨ c = 33) := by
  obtain ⟨m, hm, u, rfl⟩ := (accepted_iff p).1 h
  rw [acceptSet_eq] at hm
  simp only [List.mem_cons, List.mem_singleton, List.not_mem_nil, or_false] at hm
  rcases hm with rfl | rfl | rfl | rfl | rfl | rfl | rfl <;>
    exact ⟨_, _, rfl, by decide⟩

/-- On an accepted token `sscanf` converts nothing: the token starts with a
letter or `!`, which is neither white space, nor a sign, nor a digit. -/
theorem sscanf_accepted (p : List Nat) (px py : Int) (h : accepted p = true) :
    sscanf p px py = (0, px, py) := by
  obtain ⟨c, rest, rfl, hc⟩ := accepted_head h
  rcases hc with rfl | rfl | rfl <;>
    simp [sscanf, scanLong, isspace, isdigit, List.dropWhile]

theorem cstr_cases (s : List Nat) : cstr s = s ∨ ∃ rest, s = cstr s ++ 0 :: rest := by
  induction s with
  | nil => exact Or.inl rfl
  | cons c l ih =>
    by_cases h : c = 0
    · subst h
      exact Or.inr ⟨l, by simp [cstr_zero]⟩
    · rw [cstr_cons h]
      rcases ih with e | ⟨rest, e⟩
      · exact Or.inl (by rw [e])
      · exact Or.inr ⟨rest, by rw [List.cons_append, ← e]⟩

theorem delims_no_zero {ds : List Nat} (h : ∀ d ∈ ds, isDelim d = true) : ∀ d ∈ ds, d ≠ 0 :=
  fun d hd => isDelim_ne_zero (h d hd)

/-- A non-empty block of delimiters between two parts of a buffer separates
tokens exactly as a single delimiter does. -/
theorem runs_cstr_delim_block (a b : List Nat) {ds : List Nat} (hne : ds ≠ [])
    (h : ∀ x ∈ ds, isDelim x = true) {d : Nat} (hd : isDelim d = true) :
    runs (cstr (a ++ ds ++ b)) = runs (cstr (a ++ d :: b)) := by
  by_cases h0 : 0 ∈ a
  · rw [List.append_assoc, cstr_append_of_zero h0, cstr_append_of_zero h0]
  · have ha : ∀ x ∈ a, x ≠ 0 := fun x hx hx0 => h0 (hx0 ▸ hx)
    rw [List.append_assoc, cstr_append_of_no_zero ha,
      cstr_append_of_no_zero (delims_no_zero h), cstr_append_of_no_zero ha,
      cstr_cons (isDelim_ne_zero hd), runs_append_cons a hd]
    cases ds with
    | nil => exact absurd rfl hne
    | cons d0 ds =>
      rw [List.cons_append, runs_append_cons a (h d0 (List.mem_cons_self d0 ds)),
        runs_delims_append (fun x hx => h x (List.mem_cons_of_mem d0 hx))]

theorem runs_cstr_leading (a : List Nat) {ds : List Nat} (h : ∀ x ∈ ds, isDelim x = true) :
    runs (cstr (ds ++ a)) = runs (cstr a) := by
  rw [cstr_append_of_no_zero (delims_no_zero h), runs_delims_append h]

theorem runs_cstr_trailing (a : List Nat) {ds : List Nat} (h : ∀ x ∈ ds, isDelim x = true) :
    runs (cstr (a ++ ds)) = runs (cstr a) := by
  by_cases h0 : 0 ∈ a
  · rw [cstr_append_of_zero h0]
  · have ha : ∀ x ∈ a, x ≠ 0 := fun x hx hx0 => h0 (hx0 ▸ hx)
    rw [cstr_append_of_no_zero ha, cstr_of_no_zero (delims_no_zero h),
      runs_append_delims a h, cstr_of_no_zero ha]

theorem tokenLines_cons (t : List Nat) (ts : List (List Nat)) :
    tokenLines (t :: ts) = t ++ 59 :: 10 :: tokenLines ts := by
  have e : bytes ";\n" = [59, 10] := by decide
  simp [tokenLines, e]

/-- Tokenizing the lines written for a sequence of tokens gives the sequence
back. -/
theorem runs_tokenLines {ts : List (List Nat)}
    (h : ∀ t ∈ ts, t ≠ [] ∧ ∀ c ∈ t, isDelim c = false) : runs (tokenLines ts) = ts := by
  induction ts with
  | nil => simp [tokenLines, runs_nil]
  | cons t ts ih =>
    obtain ⟨h1, h2⟩ := h t (List.mem_cons_self t ts)
    rw [tokenLines_cons, runs_first h2 h1 (by decide), runs_cons_delim (by decide),
      ih (fun u hu => h u (List.mem_cons_of_mem t hu))]

theorem tokenLines_no_zero {ts : List (List Nat)} (h : ∀ t ∈ ts, ∀ c ∈ t, c ≠ 0) :
    ∀ c ∈ tokenLines ts, c ≠ 0 := by
  induction ts with
  | nil => simp [tokenLines]
  | cons t ts ih =>
    intro c hc
    rw [tokenLines_cons] at hc
    simp only [List.mem_append, List.mem_cons] at hc
    rcases hc with hc | rfl | rfl | hc
    · exact h t (List.mem_cons_self t ts) c hc
    · decide
    · decide
    · exact ih (fun u hu => h u (List.mem_cons_of_mem t hu)) c hc

/-- The loop reads the configuration through `slew` alone. -/
theorem loop_congr (sq : Int → Int) (glb glb1 : hpgld_glb) (h : glb1.slew = glb.slew)
    (fuel : Nat) (s : List Nat) (st : State) :
    loop sq glb1 fuel s st = loop sq glb fuel s st := by
  have hb : ∀ p a, body sq glb1 p a = body sq glb p a := by
    intro p a
    simp only [body, pace, h]
  induction fuel generalizing s st with
  | zero => rfl
  | succ n ih =>
    unfold loop
    cases strtok s delims with
    | mk r s1 =>
      cases r with
      | none => rfl
      | some p => simp only [hb, ih]

/-! ## The claims -/

/-- C1, as stated, fails on a buffer with a NUL byte: in the 7-byte buffer
`PU\0;PD;` the run `PD` lies between two delimiters of the buffer and passes the
accept test, yet the loop writes only `PU`. -/
theorem C1_token_behind_nul_dropped :
    ∃ st, main (fun _ => 0) (HPGLD_init 0) (bytes "PU\x00;PD;") = some st ∧
      st.written = [bytes "PU"] ∧
      ∃ t ∈ runs (bytes "PU\x00;PD;"), accepted t = true ∧ t ∉ st.written :=
  ⟨_, rfl, by decide, bytes "PD", by decide, by decide, by decide⟩

/-- C1, amended: for every input buffer the loop ends and writes exactly the
accepted tokens of the C string held in the buffer, that is of the bytes before
the first NUL byte (the whole buffer when it has none). Every token written
begins with one of the seven mnemonics, and every token of that string that
begins with one is written. -/
theorem C1_emits_accepted_tokens_of_cstr (sq : Int → Int) (glb : hpgld_glb)
    (data : List Nat) :
    ∃ st, main sq glb data = some st ∧
      st.written = (runs (cstr data)).filter accepted ∧
      (∀ t ∈ st.written, ∃ m ∈ acceptSet, m <+: t) ∧
      (∀ t ∈ runs (cstr data), (∃ m ∈ acceptSet, m <+: t) → t ∈ st.written) ∧
      (cstr data = data ∨ ∃ rest, data = cstr data ++ 0 :: rest) ∧
      (∀ b ∈ cstr data, b ≠ 0) := by
  obtain ⟨st, h1, h2, -⟩ := main_spec sq glb data
  refine ⟨st, h1, h2, ?_, ?_, cstr_cases data, cstr_no_zero data⟩
  · intro t ht
    rw [h2, List.mem_filter] at ht
    exact (accepted_iff t).1 ht.2
  · intro t ht hm
    rw [h2, List.mem_filter]
    exact ⟨ht, (accepted_iff t).2 hm⟩

/-- C2: for every input buffer, the tokens the loop writes are a subsequence of
the tokens `strtok` returns on it (those that pass the accept test, in the same
order and as often), and every token is a contiguous piece of the input
buffer, byte for byte: a maximal delimiter-free run of the C string in it. -/
theorem C2_written_is_subsequence (sq : Int → Int) (glb : hpgld_glb) (data : List Nat) :
    ∃ st ts, main sq glb data = some st ∧ tokens data = some ts ∧
      st.written.Sublist ts ∧
      st.written = ts.filter accepted ∧
      (∀ t ∈ ts, t <:+: data) ∧
      ts = runs (cstr data) := by
  obtain ⟨st, h1, h2, -⟩ := main_spec sq glb data
  refine ⟨st, _, h1, tokens_eq data, ?_, h2, ?_, rfl⟩
  · rw [h2]; exact List.filter_sublist _
  · intro t ht
    exact (runs_contiguous _ t ht).trans (cstr_initial data).isInfix

/-- C3: on every input buffer the `strtok` calls end (whatever the fuel above
the memory length) and return tokens that are
non-empty and hold none of `;`, line feed, carriage return; a block of
consecutive delimiters separates like a single one; delimiters at the start or
at the end of the buffer add no token; a buffer of delimiters only (the empty
buffer included) has no token. -/
theorem C3_tokenizer :
    (∀ data, ∃ ts, tokens data = some ts ∧
      (∀ fuel, (data ++ [0]).length < fuel → tokenize fuel (data ++ [0]) = some ts) ∧
      ∀ t ∈ ts, t ≠ [] ∧ 59 ∉ t ∧ 10 ∉ t ∧ 13 ∉ t) ∧
    (∀ a ds b d, ds ≠ [] → (∀ x ∈ ds, x = 59 ∨ x = 10 ∨ x = 13) →
      (d = 59 ∨ d = 10 ∨ d = 13) → tokens (a ++ ds ++ b) = tokens (a ++ d :: b)) ∧
    (∀ ds a, (∀ x ∈ ds, x = 59 ∨ x = 10 ∨ x = 13) →
      tokens (ds ++ a) = tokens a ∧ tokens (a ++ ds) = tokens a) ∧
    (∀ ds, (∀ x ∈ ds, x = 59 ∨ x = 10 ∨ x = 13) → tokens ds = some []) := by
  refine ⟨?_, ?_, ?_, ?_⟩
  · intro data
    refine ⟨_, tokens_eq data, ?_, ?_⟩
    · intro fuel hf
      rw [tokenize_eq fuel _ hf, cstr_append_zero]
    intro t ht
    obtain ⟨h1, h2⟩ := runs_mem _ t ht
    refine ⟨h1, ?_, ?_, ?_⟩ <;> intro hc <;> have := h2 _ hc <;> simp [isDelim, delims_eq] at this
  · intro a ds b d hne h hd
    rw [tokens_eq, tokens_eq,
      runs_cstr_delim_block a b hne (fun x hx => (isDelim_iff x).2 (h x hx))
        ((isDelim_iff d).2 hd)]
  · intro ds a h
    have h' : ∀ x ∈ ds, isDelim x = true := fun x hx => (isDelim_iff x).2 (h x hx)
    rw [tokens_eq, tokens_eq, tokens_eq, runs_cstr_leading a h', runs_cstr_trailing a h']
    exact ⟨rfl, rfl⟩
  · intro ds h
    have h' : ∀ x ∈ ds, isDelim x = true := fun x hx => (isDelim_iff x).2 (h x hx)
    rw [tokens_eq, cstr_of_no_zero (delims_no_zero h'), runs_delims h']

/-- C4: for every input buffer and initialisation string the loop ends, and
the bytes in the output file are the initialisation string, one line feed, and
then each accepted token, in order, followed by `;` and a line feed; on the
empty buffer they are the initialisation string and the line feed alone. -/
theorem C4_output_bytes (sq : Int → Int) (glb : hpgld_glb) (data : List Nat) :
    (∃ st ts, main sq glb data = some st ∧ tokens data = some ts ∧
      st.written = ts.filter accepted ∧
      st.fo = glb.init_string ++ [10] ++
        ((ts.filter accepted).map (fun t => t ++ [59, 10])).flatten) ∧
    (main sq glb []).map State.fo = some (glb.init_string ++ [10]) := by
  constructor
  · obtain ⟨st, h1, h2, h3⟩ := main_spec sq glb data
    refine ⟨st, _, h1, tokens_eq data, h2, ?_⟩
    rw [h3, h2]
    rfl
  · obtain ⟨st, h1, h2, h3⟩ := main_spec sq glb []
    have e : bytes "\n" = [10] := by decide
    rw [h1, Option.map_some', h3, h2, cstr_nil, runs_nil, e]
    simp [tokenLines]

/-- C5: a token passes the accept test exactly when it starts with the bytes of
one of `IN`, `PA`, `PD`, `PU`, `PG`, `PR`, `!PG`, compared byte for byte. The
token `!PG` passes through the 3-byte test of `!PG` alone, `PGfoo` through the
2-byte test of `PG` alone, and `pa1,2`, `SP1`, `!PX` are rejected. -/
theorem C5_classifier :
    (∀ p, accepted p = true ↔ ∃ m ∈ acceptSet, m <+: p) ∧
    (accepted (bytes "!PG") = true ∧ strncmp (bytes "!PG") (bytes "!PG") 3 = 0 ∧
      strncmp (bytes "!PG") (bytes "PG") 2 ≠ 0 ∧
      ∀ m ∈ acceptSet, m <+: bytes "!PG" → m = bytes "!PG") ∧
    (accepted (bytes "PGfoo") = true ∧ strncmp (bytes "PGfoo") (bytes "PG") 2 = 0 ∧
      strncmp (bytes "PGfoo") (bytes "!PG") 3 ≠ 0 ∧
      ∀ m ∈ acceptSet, m <+: bytes "PGfoo" → m = bytes "PG") ∧
    accepted (bytes "pa1,2") = false ∧ accepted (bytes "SP1") = false ∧
    accepted (bytes "!PX") = false := by
  refine ⟨accepted_iff, ⟨by decide, by decide, by decide, by decide⟩,
    ⟨by decide, by decide, by decide, by decide⟩, by decide, by decide, by decide⟩

/-- C6; the code misses it: `sscanf` reads from the first byte of the token,
which for an accepted token is the `I`, `P` or `!` of its mnemonic, so no
number is converted, the return value is `0` and the distance branch is never
entered. Every accepted token with a comma, `PA100,0` included, gets the fixed
delay `10 * slew` and leaves `ox`, `oy` as they were. -/
theorem C6_distance_branch_never_entered (sq : Int → Int) (glb : hpgld_glb) (p : List Nat)
    (st : State) (hacc : accepted p = true) (hslew : glb.slew ≠ 0)
    (hcomma : strchr p 44 = true) :
    sscanf p st.px st.py = (0, st.px, st.py) ∧
    body sq glb p st =
      { st with
        fo := st.fo ++ (p ++ bytes ";\n"), written := st.written ++ [p],
        sleeps := st.sleeps ++ [toUseconds (10 * glb.slew)] } := by
  have hs := sscanf_accepted p st.px st.py hacc
  refine ⟨hs, ?_⟩
  simp [body, pace, hacc, hslew, hcomma, hs]

/-- C6 at the token of the claim: from pen position (0,0) and with slew 1000,
`PA100,0` is written, the delay is 10000 (not 100000) and the pen position is
still (0,0). -/
theorem C6_PA100_gets_fallback_delay :
    accepted (bytes "PA100,0") = true ∧
    ({ HPGLD_init 0 with slew := 1000 } : hpgld_glb).slew ≠ 0 ∧
    strchr (bytes "PA100,0") 44 = true ∧
    sscanf (bytes "PA100,0") 0 0 = (0, 0, 0) ∧
    body (fun v => v) { HPGLD_init 0 with slew := 1000 } (bytes "PA100,0")
        (initState { HPGLD_init 0 with slew := 1000 }) =
      { fo := bytes "IN;PU;\nPA100,0;\n", written := [bytes "PA100,0"], sleeps := [10000],
        px := 0, py := 0, ox := 0, oy := 0 } :=
  ⟨by decide, by decide, by decide,
    C6_distance_branch_never_entered (fun v => v) { HPGLD_init 0 with slew := 1000 }
      (bytes "PA100,0") (initState { HPGLD_init 0 with slew := 1000 })
      (by decide) (by decide) (by decide)⟩

/-- C7, as stated, fails for a large slew: the product `10 * glb.slew` is
computed in `int` and handed to `usleep` as a 32-bit `useconds_t`. With the
`int` value `k = 1000000000` the accepted token `PAxx,yy`, which has a comma
and from which `sscanf` converts nothing, gets the delay `1410065408`, not
`10 * k = 10000000000`. -/
theorem C7_delay_wraps_for_large_slew :
    (0 : Int) < 1000000000 ∧ accepted (bytes "PAxx,yy") = true ∧
    strchr (bytes "PAxx,yy") 44 = true ∧ (sscanf (bytes "PAxx,yy") 0 0).1 ≠ 2 ∧
    (body (fun v => v) { HPGLD_init 0 with slew := 1000000000 } (bytes "PAxx,yy")
      (initState { HPGLD_init 0 with slew := 1000000000 })).sleeps = [1410065408] ∧
    (body (fun v => v) { HPGLD_init 0 with slew := 1000000000 } (bytes "PAxx,yy")
      (initState { HPGLD_init 0 with slew := 1000000000 })).sleeps ≠
        [((10 : Int) * 1000000000).toNat] :=
  ⟨by decide, by decide, by decide, by decide, by decide, by decide⟩

/-- C7, amended: with a slew `k > 0` for which `10 * k` stays within `int`
(`10 * k ≤ 2147483647`), an accepted token with a comma from which `sscanf`
does not convert two integers is written to the output, gets one `usleep` of
exactly `10 * k`, leaves the pen position `ox`, `oy` unchanged, and the loop
goes on with the next `strtok` call; the run as a whole always ends
normally. -/
theorem C7_fallback_delay (sq : Int → Int) (glb : hpgld_glb) (p : List Nat) (st : State)
    (k : Int) (hk : glb.slew = k) (hpos : 0 < k) (hmax : 10 * k ≤ 2147483647)
    (hacc : accepted p = true) (hcomma : strchr p 44 = true)
    (hscan : (sscanf p st.px st.py).1 ≠ 2) :
    (body sq glb p st).sleeps = st.sleeps ++ [(10 * k).toNat] ∧
    (body sq glb p st).ox = st.ox ∧ (body sq glb p st).oy = st.oy ∧
    (body sq glb p st).fo = st.fo ++ (p ++ [59, 10]) ∧
    (body sq glb p st).written = st.written ++ [p] ∧
    (∀ fuel s s1, strtok s delims = (some p, s1) →
      loop sq glb (fuel + 1) s st = loop sq glb fuel s1 (body sq glb p st)) ∧
    (∀ data, ∃ st1, main sq glb data = some st1) := by
  have hne : glb.slew ≠ 0 := by omega
  have hu : toUseconds (10 * glb.slew) = (10 * k).toNat := by
    unfold toUseconds
    rw [hk, Int.emod_eq_of_lt (by omega) (by omega)]
  have hb : body sq glb p st =
      { st with
        fo := st.fo ++ (p ++ bytes ";\n"), written := st.written ++ [p],
        px := (sscanf p st.px st.py).2.1, py := (sscanf p st.px st.py).2.2,
        sleeps := st.sleeps ++ [toUseconds (10 * glb.slew)] } := by
    simp [body, pace, hacc, hne, hcomma, hscan]
  rw [hb, hu]
  refine ⟨rfl, rfl, rfl, rfl, rfl, ?_, fun data => ⟨_, main_eq sq glb data⟩⟩
  intro fuel s s1 hst
  rw [loop, hst]
  simp only [hb, hu]

/-- C7, amended, at the token `PAxx,yy` with slew 1000, after `IN;PU;` has been
written: the delay is 10000. -/
theorem C7_PAxx_yy :
    ({ HPGLD_init 0 with slew := 1000 } : hpgld_glb).slew = 1000 ∧ (0 : Int) < 1000 ∧
    (10 : Int) * 1000 ≤ 2147483647 ∧ accepted (bytes "PAxx,yy") = true ∧
    strchr (bytes "PAxx,yy") 44 = true ∧ (sscanf (bytes "PAxx,yy") 0 0).1 ≠ 2 ∧
    (body (fun v => v) { HPGLD_init 0 with slew := 1000 } (bytes "PAxx,yy")
      (initState { HPGLD_init 0 with slew := 1000 })).sleeps = [10000] :=
  ⟨by decide, by decide, by decide, by decide, by decide, by decide,
    (C7_fallback_delay (fun v => v) { HPGLD_init 0 with slew := 1000 } (bytes "PAxx,yy")
      (initState { HPGLD_init 0 with slew := 1000 }) 1000
      (by decide) (by decide) (by decide) (by decide) (by decide) (by decide)).1⟩

/-- C8, as stated, fails with the default initialisation string `IN;PU;`: on
the buffer `PD1,2;SP1;` the first run writes the token `PD1,2`; run on that
output, the loop writes `IN`, `PU`, `PD1,2`, and the second output is not the
first one with the initialisation line put in front. -/
theorem C8_second_run_emits_init_tokens :
    ∃ st1 st2, main (fun v => v) (HPGLD_init 0) (bytes "PD1,2;SP1;") = some st1 ∧
      main (fun v => v) (HPGLD_init 0) st1.fo = some st2 ∧
      st1.written = [bytes "PD1,2"] ∧
      st2.written = [bytes "IN", bytes "PU", bytes "PD1,2"] ∧
      st2.written ≠ st1.written ∧
      st2.fo ≠ (HPGLD_init 0).init_string ++ bytes "\n" ++ st1.fo :=
  ⟨_, _, rfl, rfl, by decide, by decide, by decide, by decide⟩

/-- C8, amended: for every input buffer and every initialisation string (a C
string, so without NUL byte), running the loop on the output of a first run
writes the accepted tokens of the initialisation string followed by the tokens
the first run wrote; the second output is the initialisation string, a line
feed and these tokens, each followed by `;` and a line feed. -/
theorem C8_second_run (sq : Int → Int) (glb : hpgld_glb) (data : List Nat)
    (hinit : ∀ b ∈ glb.init_string, b ≠ 0) :
    ∃ st1 st2, main sq glb data = some st1 ∧ main sq glb st1.fo = some st2 ∧
      st2.written = (runs glb.init_string).filter accepted ++ st1.written ∧
      st2.fo = glb.init_string ++ [10] ++
        (st2.written.map (fun t => t ++ [59, 10])).flatten := by
  obtain ⟨st1, a1, a2, a3⟩ := main_spec sq glb data
  obtain ⟨st2, b1, b2, b3⟩ := main_spec sq glb st1.fo
  have e : bytes "\n" = [10] := by decide
  have hW : ∀ t ∈ st1.written, t ≠ [] ∧ ∀ c ∈ t, isDelim c = false := by
    intro t ht
    rw [a2] at ht
    exact runs_mem _ t (List.mem_filter.1 ht).1
  have hW0 : ∀ t ∈ st1.written, ∀ c ∈ t, c ≠ 0 := by
    intro t ht c hc
    rw [a2] at ht
    exact cstr_no_zero data c ((runs_contiguous _ t (List.mem_filter.1 ht).1).subset hc)
  have hfo : st1.fo = glb.init_string ++ 10 :: tokenLines st1.written := by
    rw [a3, e]; simp
  have hz : ∀ b ∈ st1.fo, b ≠ 0 := by
    intro b hb
    rw [hfo] at hb
    simp only [List.mem_append, List.mem_cons] at hb
    rcases hb with hb | rfl | hb
    · exact hinit b hb
    · decide
    · exact tokenLines_no_zero hW0 b hb
  have hr : runs (cstr st1.fo) = runs glb.init_string ++ st1.written := by
    rw [cstr_of_no_zero hz, hfo, runs_append_cons _ (by decide), runs_tokenLines hW]
  have hw2 : st2.written = (runs glb.init_string).filter accepted ++ st1.written := by
    rw [b2, hr, List.filter_append]
    congr 1
    rw [a2, List.filter_filter]
    simp
  refine ⟨st1, st2, a1, b1, hw2, ?_⟩
  rw [b3, e]
  rfl

/-- C8, amended, at the default initialisation string and the buffer
`PD1,2;SP1;`. -/
theorem C8_second_run_default_init :
    (∀ b ∈ (HPGLD_init 0).init_string, b ≠ 0) ∧
    ∃ st1 st2, main (fun v => v) (HPGLD_init 0) (bytes "PD1,2;SP1;") = some st1 ∧
      main (fun v => v) (HPGLD_init 0) st1.fo = some st2 ∧
      st2.written = (runs (HPGLD_init 0).init_string).filter accepted ++ st1.written ∧
      st2.fo = (HPGLD_init 0).init_string ++ [10] ++
        (st2.written.map (fun t => t ++ [59, 10])).flatten :=
  ⟨by decide, C8_second_run (fun v => v) (HPGLD_init 0) (bytes "PD1,2;SP1;") (by decide)⟩

/-- C9; the code misses it: the loop never reads `find_bb`, `xoffset`,
`yoffset` or the `bb_` fields, so the run is the same whatever they hold. With
`find_bb = 1` and offsets 0, the buffer `PA-5,10;PA0,20;` (minimum (-5, 10)) is
written back with its coordinates unchanged, not as `PA0,0;` and `PA5,10;`. -/
theorem C9_bounding_box_not_applied :
    (∀ (sq : Int → Int) (glb : hpgld_glb) (data : List Nat) (b xo yo w h x y : Int),
      main sq { glb with find_bb := b, bb_xo := xo, bb_yo := yo, bb_width := w,
                         bb_height := h, xoffset := x, yoffset := y } data =
        main sq glb data) ∧
    (main (fun v => v) (HPGLD_init 1) (bytes "PA-5,10;PA0,20;")).map State.fo =
      some (bytes "IN;PU;\nPA-5,10;\nPA0,20;\n") := by
  refine ⟨?_, by decide⟩
  intro sq glb data b xo yo w h x y
  exact loop_congr sq glb
    { glb with find_bb := b, bb_xo := xo, bb_yo := yo, bb_width := w, bb_height := h,
               xoffset := x, yoffset := y } rfl _ _ _

/-- C10: when the input buffer has a zero byte at position `i`, the run is the
run on the first `i` bytes: the same tokens are met and the same final state is
reached, so nothing behind the first NUL byte is written. -/
theorem C10_stops_at_nul (sq : Int → Int) (glb : hpgld_glb) (data : List Nat) (i : Nat)
    (h : data[i]? = some 0) :
    tokens data = tokens (data.take i) ∧ main sq glb data = main sq glb (data.take i) := by
  obtain ⟨hi, h0⟩ := List.getElem?_eq_some_iff.1 h
  have hd : data = data.take i ++ 0 :: data.drop (i + 1) := by
    conv_lhs => rw [← List.take_append_drop i data, List.drop_eq_getElem_cons hi, h0]
  have hc : cstr data = cstr (data.take i) := by
    conv_lhs => rw [hd, cstr_append_zero_cons]
  rw [tokens_eq, tokens_eq, main_eq, main_eq, hc]
  exact ⟨rfl, rfl⟩

/-- C10 at the buffer `PU;\0PD;`, whose byte 3 is zero: only `PU` is written. -/
theorem C10_PU_nul_PD :
    (bytes "PU;\x00PD;")[3]? = some 0 ∧
    (tokens (bytes "PU;\x00PD;") = tokens ((bytes "PU;\x00PD;").take 3) ∧
      main (fun v => v) (HPGLD_init 0) (bytes "PU;\x00PD;") =
        main (fun v => v) (HPGLD_init 0) ((bytes "PU;\x00PD;").take 3)) ∧
    (main (fun v => v) (HPGLD_init 0) (bytes "PU;\x00PD;")).map State.written =
      some [bytes "PU"] :=
  ⟨by decide, C10_stops_at_nul (fun v => v) (HPGLD_init 0) (bytes "PU;\x00PD;") 3 (by decide),
    by decide⟩

end HPGLD
